import Mathlib

/-!
Verification of the OpenAlex→Zotero deduplication pipeline
(`src/OAPipeV3/main.py`, `src/OAPipeV3/preprocess.py`).

The Python code is shallowly embedded: strings are Lean `String`s
(lists of characters), the regex substitutions of `preprocess.py` are
embedded as character-list scanners that mirror the leftmost,
non-overlapping matching of Python's `re.sub`, Python dictionaries
holding bibliographic metadata become structures with `Option` fields
(absent key = `none`), Python truthiness of an optional string is
"present and non-empty", and floats are idealised as exact rationals.
The two external collaborators that the repository merely calls —
the Zotero search API and difflib's similarity ratio — are passed in
as parameters, and the two external text libraries (BeautifulSoup,
unidecode) are modelled from the spec where noted.
-/

namespace OAPipe

/-- Characters matched by Python's `\s` (and stripped by `str.strip()`):
ASCII whitespace, the C1 separators, and the Unicode space characters. -/
def pyWs (c : Char) : Bool :=
  c.val = 32 || c.val = 9 || c.val = 10 || c.val = 11 || c.val = 12 || c.val = 13 ||
  (28 ≤ c.val && c.val ≤ 31) || c.val = 0x85 || c.val = 0xa0 || c.val = 0x1680 ||
  (0x2000 ≤ c.val && c.val ≤ 0x200a) || c.val = 0x2028 || c.val = 0x2029 ||
  c.val = 0x202f || c.val = 0x205f || c.val = 0x3000

/-- The sentence-punctuation class `[\.,;:!?]` of `clean_title`. -/
def isPunct (c : Char) : Bool :=
  c = '.' || c = ',' || c = ';' || c = ':' || c = '!' || c = '?'

/-- The Unicode dash variants `[‐‑‒–—−]`
unified by `clean_title`. -/
def isUDash (c : Char) : Bool :=
  c = '‐' || c = '‑' || c = '‒' || c = '–' || c = '—' ||
  c = '−'

/-- Python `str.lower()` (per-character lowering). -/
def pyLower (s : String) : String := ⟨s.data.map Char.toLower⟩

/-- Python `str.strip()` on a character list: drop whitespace from both ends. -/
def pyStripL (l : List Char) : List Char :=
  ((l.dropWhile pyWs).reverse.dropWhile pyWs).reverse

/-- Python `str.strip()`. -/
def pyStrip (s : String) : String := ⟨pyStripL s.data⟩

/-- The expression `x.strip().lower()` used for DOI/ISSN comparison. -/
def stripLower (s : String) : String := pyLower (pyStrip s)

/-- Worker for Python `str.split()` (split on whitespace runs, no empties);
the first argument is the current word, reversed. -/
def splitWsAux : List Char → List Char → List (List Char)
  | cur, [] => if cur.isEmpty then [] else [cur.reverse]
  | cur, c :: rest =>
    if pyWs c then
      if cur.isEmpty then splitWsAux [] rest else cur.reverse :: splitWsAux [] rest
    else splitWsAux (c :: cur) rest

/-- Python `str.split()` with no arguments. -/
def pySplit (s : String) : List String := (splitWsAux [] s.data).map fun l => ⟨l⟩

/-- Python `" ".join(...)`. -/
def joinSpace : List String → String
  | [] => ""
  | [s] => s
  | s :: rest => s ++ " " ++ joinSpace rest

/-- One pass of `re.sub(r'<[^>]+>', '', text)`: at each `<`, the greedy
body is everything up to the next `>`; a match needs a non-empty body,
otherwise the engine advances one character.  Fueled so that the kernel
can evaluate it; fuel `= length` always suffices because every step
consumes at least one character. -/
def removeTagsF : ℕ → List Char → List Char
  | 0, l => l
  | _ + 1, [] => []
  | n + 1, c :: rest =>
    if c = '<' then
      match rest.dropWhile (· ≠ '>') with
      | '>' :: r =>
        if (rest.takeWhile (· ≠ '>')).isEmpty then c :: removeTagsF n rest
        else removeTagsF n r
      | _ => c :: removeTagsF n rest
    else c :: removeTagsF n rest

/-- `re.sub(r'<[^>]+>', '', text)`. -/
def removeTags (l : List Char) : List Char := removeTagsF l.length l

/-- One pass of `re.sub(r'\$.*?\$', '', text)`: lazy dot does not cross a
newline, so a `$` pairs with the nearest following `$` having no
newline in between; otherwise the engine advances one character. -/
def dollarSubF : ℕ → List Char → List Char
  | 0, l => l
  | _ + 1, [] => []
  | n + 1, c :: rest =>
    if c = '$' then
      match rest.dropWhile (fun d => !(d = '$' || d = '\n')) with
      | '$' :: r => dollarSubF n r
      | _ => c :: dollarSubF n rest
    else c :: dollarSubF n rest

/-- `re.sub(r'\$.*?\$', '', text)`. -/
def dollarSub (l : List Char) : List Char := dollarSubF l.length l

/-- Find the nearest occurrence of the closer `\)` with no newline before
it (the lazy `.*?` of the `\(...\)` math pattern); returns the remainder
after the closer. -/
def findParenClose : List Char → Option (List Char)
  | [] => none
  | '\\' :: ')' :: r => some r
  | '\n' :: _ => none
  | _ :: r => findParenClose r

/-- One pass of `re.sub(r'\\\(.*?\\\)', '', text)`. -/
def parenSubF : ℕ → List Char → List Char
  | 0, l => l
  | _ + 1, [] => []
  | n + 1, c :: rest =>
    if c = '\\' then
      match rest with
      | '(' :: rest2 =>
        match findParenClose rest2 with
        | some r => parenSubF n r
        | none => c :: parenSubF n rest
      | _ => c :: parenSubF n rest
    else c :: parenSubF n rest

/-- `re.sub(r'\\\(.*?\\\)', '', text)`. -/
def parenSub (l : List Char) : List Char := parenSubF l.length l

/-- Parse `mml:[^>]+>` (case-insensitive `mml:`) at the head of the list;
returns the remainder after the closing `>`. -/
def parseMmlName : List Char → Option (List Char)
  | m1 :: m2 :: m3 :: co :: r =>
    if m1.toLower = 'm' && m2.toLower = 'm' && m3.toLower = 'l' && co = ':' then
      match r.dropWhile (· ≠ '>') with
      | '>' :: r2 => if (r.takeWhile (· ≠ '>')).isEmpty then none else some r2
      | _ => none
    else none
  | _ => none

/-- Find the nearest closer `</mml:[^>]+>` (the lazy DOTALL `.*?` of the
MathML block pattern); returns the remainder after it. -/
def findMmlClose : List Char → Option (List Char)
  | [] => none
  | c :: rest =>
    if c = '<' then
      match rest with
      | '/' :: r =>
        match parseMmlName r with
        | some r2 => some r2
        | none => findMmlClose rest
      | _ => findMmlClose rest
    else findMmlClose rest

/-- One pass of
`re.sub(r'<mml:[^>]+>.*?</mml:[^>]+>', '', text, flags=DOTALL|IGNORECASE)`:
an opener `<mml:...>` followed by the nearest closer is removed whole;
an opener with no closer fails, and the engine advances one character. -/
def mmlBlockSubF : ℕ → List Char → List Char
  | 0, l => l
  | _ + 1, [] => []
  | n + 1, c :: rest =>
    if c = '<' then
      match parseMmlName rest with
      | some r2 =>
        match findMmlClose r2 with
        | some r3 => mmlBlockSubF n r3
        | none => c :: mmlBlockSubF n rest
      | none => c :: mmlBlockSubF n rest
    else c :: mmlBlockSubF n rest

/-- The MathML block-removal substitution of `clean_mathml`. -/
def mmlBlockSub (l : List Char) : List Char := mmlBlockSubF l.length l

/-- One pass of `re.sub(r'</?mml:[^>]+>', '', text, flags=IGNORECASE)`:
remove single (possibly closing) MathML tags. -/
def mmlTagSubF : ℕ → List Char → List Char
  | 0, l => l
  | _ + 1, [] => []
  | n + 1, c :: rest =>
    if c = '<' then
      match (match rest with | '/' :: r => parseMmlName r | _ => parseMmlName rest) with
      | some r2 => mmlTagSubF n r2
      | none => c :: mmlTagSubF n rest
    else c :: mmlTagSubF n rest

/-- The lingering-tag substitution of `clean_mathml`. -/
def mmlTagSub (l : List Char) : List Char := mmlTagSubF l.length l

/-- `re.sub(r'[‐‑‒–—−]', '-', title)`:
unify Unicode dash variants to an ASCII hyphen. -/
def dashSub (l : List Char) : List Char :=
  l.map fun c => if isUDash c then '-' else c

/-- One pass of `re.sub(r'\s*-\s*', '-', title)`: every hyphen, together
with the whitespace runs around it, becomes a bare hyphen. -/
def hyphenSubF : ℕ → List Char → List Char
  | 0, l => l
  | _ + 1, [] => []
  | n + 1, c :: rest =>
    if c = '-' then '-' :: hyphenSubF n (rest.dropWhile pyWs)
    else if pyWs c then
      match (c :: rest).dropWhile pyWs with
      | '-' :: r => '-' :: hyphenSubF n (r.dropWhile pyWs)
      | rest2 => (c :: rest).takeWhile pyWs ++ hyphenSubF n rest2
    else c :: hyphenSubF n rest

/-- `re.sub(r'\s*-\s*', '-', title)`. -/
def hyphenSub (l : List Char) : List Char := hyphenSubF l.length l

/-- Worker for `re.sub(r'[\.,;:!?]+(?=\s|$)', '', title)`: accumulate the
current punctuation run (reversed); it is deleted when followed by
whitespace or the end of the string, and flushed otherwise. -/
def punctAux : List Char → List Char → List Char
  | _, [] => []
  | pend, c :: rest =>
    if isPunct c then punctAux (c :: pend) rest
    else if pyWs c then c :: punctAux [] rest
    else pend.reverse ++ c :: punctAux [] rest

/-- `re.sub(r'[\.,;:!?]+(?=\s|$)', '', title)`: remove trailing sentence
punctuation before whitespace or end of string. -/
def punctSub (l : List Char) : List Char := punctAux [] l

/-- Worker for `re.sub(r'\s+', ' ', text)`: the flag records whether the
previous character was whitespace (whose single `' '` is already out). -/
def collapseAux : Bool → List Char → List Char
  | _, [] => []
  | afterWs, c :: rest =>
    if pyWs c then
      if afterWs then collapseAux true rest else ' ' :: collapseAux true rest
    else c :: collapseAux false rest

/-- `re.sub(r'\s+', ' ', text)`: collapse every whitespace run to one space. -/
def collapseWs (l : List Char) : List Char := collapseAux false l

/-- `collapse_whitespace` (preprocess.py line 33): collapse runs, then strip. -/
def collapse_whitespace (l : List Char) : List Char := pyStripL (collapseWs l)

/-- Modelled from the spec: step 1 of the Text Normalizer, "Strip HTML/XML
tags (parse and extract text content only)".  The source delegates this to
the external BeautifulSoup library (`BeautifulSoup(text, "html.parser")
.get_text()`); it is modelled as removal of angle-bracket tag spans, the
same shape as the later leftover-tag regex of `clean_title`. -/
def bs4GetText (l : List Char) : List Char := removeTags l

/-- `strip_markup` (preprocess.py line 7): BeautifulSoup text extraction,
then the `$...$` and `\(...\)` math removals, then `strip()`. -/
def strip_markup (s : String) : String :=
  ⟨pyStripL (parenSub (dollarSub (bs4GetText s.data)))⟩

/-- `clean_mathml` (preprocess.py line 21): remove `<mml:...>...</mml:...>`
blocks, then lingering single MathML tags. -/
def clean_mathml (l : List Char) : List Char := mmlTagSub (mmlBlockSub l)

/-- `clean_title` (preprocess.py line 39): the full title cleanup pipeline. -/
def clean_title (title : String) : String :=
  ⟨collapse_whitespace (punctSub (hyphenSub (dashSub
    (removeTags (clean_mathml (strip_markup title).data)))))⟩

/-- Modelled from the spec: the `unidecode` transliteration used by the
author normalizer ("transliterate to closest ASCII representation") is an
external library; it is modelled as the identity on ASCII characters,
with all other characters omitted. -/
def pyUnidecode (s : String) : String :=
  ⟨s.data.filter fun c => c.val < 128⟩

/-- Python's `\w` word class on the post-transliteration (ASCII) text:
letters, digits and underscore. -/
def pyIsWord (c : Char) : Bool := c.isAlphanum || c = '_'

/-- `normalize_author_name` (preprocess.py line 53): lower-case, strip,
transliterate, delete punctuation, split; with at least two tokens the
result is the last token followed by the initials of the earlier tokens,
otherwise the cleaned name itself. -/
def normalize_author_name (name : String) : String :=
  let name1 := pyUnidecode (pyStrip (pyLower name))
  let name2 : String := ⟨name1.data.filter fun c => pyIsWord c || pyWs c⟩
  let name_parts := pySplit name2
  if 2 ≤ name_parts.length then
    name_parts.getLastD "" ++ " " ++ joinSpace ((name_parts.dropLast).map (·.take 1))
  else name2

/-- A creator entry of a metadata record: a Python dict with the optional
fields consulted by the code (`family`, `lastName`) plus the `given` name
that the spec mentions but the code never reads; `junk` stands for a
non-dict list element. -/
inductive Creator where
  | mk (family : Option String) (lastName : Option String) (given : Option String)
  | junk
deriving DecidableEq

/-- The expression `c.get('family') or c.get('lastName', '')`: the family
name when present and non-empty (Python truthiness), else the last name,
else the empty string. -/
def creatorRawName (family lastName : Option String) : String :=
  match family with
  | some s => if s = "" then lastName.getD "" else s
  | none => lastName.getD ""

/-- `extract_author_last_names` (preprocess.py line 62): the set of
normalized keys of the dict-shaped creators; `compare_metadata`
(main.py lines 50–57) and the creator fallback of `find_matching_titles`
inline the same comprehension. -/
def extract_author_last_names (creators : List Creator) : Finset String :=
  (creators.filterMap fun c =>
    match c with
    | .mk f ln _ => some (normalize_author_name (creatorRawName f ln))
    | .junk => none).toFinset

/-- A metadata record (the `data` payload of a Zotero item, and the
`metadata` dict built for the target): a Python dict with optional
fields, absent key = `none`. -/
structure ItemData where
  title : Option String
  DOI : Option String
  ISSN : Option String
  date : Option String
  itemType : Option String
  creators : List Creator
deriving DecidableEq

/-- A raw Zotero search result: wraps the metadata `data` dict and the
item `key`. -/
structure Entry where
  data : ItemData
  key : Option String
deriving DecidableEq

/-- Python truthiness of an optional string field: present and non-empty. -/
def truthy (o : Option String) : Bool := o.getD "" != ""

/-- The creator-overlap ratio test of `compare_metadata` (main.py line 61):
`len(intersection) / max(len(creators_b), 1) >= 0.5`, with the float
comparison idealised to exact rationals. -/
def creatorRatioOk (k m : ℕ) : Prop :=
  mkRat 1 2 ≤ (k : ℚ) / ((max m 1 : ℕ) : ℚ)

instance (k m : ℕ) : Decidable (creatorRatioOk k m) :=
  decidable_of_iff (max m 1 ≤ 2 * k) (by
    unfold creatorRatioOk
    have h1 : 0 < max m 1 := Nat.lt_of_lt_of_le Nat.zero_lt_one (le_max_right m 1)
    have hdq : (0 : ℚ) < ((max m 1 : ℕ) : ℚ) := by exact_mod_cast h1
    rw [show (mkRat 1 2 : ℚ) = 1 / 2 by norm_num,
      div_le_div_iff₀ (by norm_num) hdq, one_mul]
    constructor
    · intro h
      have h2 : max m 1 ≤ k * 2 := by omega
      exact_mod_cast h2
    · intro h
      have h2 : max m 1 ≤ k * 2 := by exact_mod_cast h
      omega)

/-- `compare_metadata` (main.py line 35): the additive metadata
corroboration score — +5 equal non-empty DOI (trimmed, lower-cased),
+2 equal truthy date, +1 equal `itemType` values, +2 creator overlap
(intersection of at least two, or ratio against the target's creator
count of at least one half). -/
def compare_metadata (item target : ItemData) : ℕ :=
  let score : ℕ := 0
  let score := if truthy item.DOI && truthy target.DOI &&
      (stripLower (item.DOI.getD "") == stripLower (target.DOI.getD "")) then
    score + 5 else score
  let score := if truthy item.date && truthy target.date &&
      (item.date.getD "" == target.date.getD "") then score + 2 else score
  let score := if item.itemType = target.itemType then score + 1 else score
  let creators_a := extract_author_last_names item.creators
  let creators_b := extract_author_last_names target.creators
  let intersection := creators_a ∩ creators_b
  let score := if 2 ≤ intersection.card ∨
      creatorRatioOk intersection.card creators_b.card then score + 2 else score
  score

/-- An accepted match as built by `evaluate_match` (main.py line 73). -/
structure Match where
  title : String
  similarity : ℚ
  score : ℕ
  DOI : Option String
  ISSN : Option String
  creators : List Creator
  date : Option String
  itemType : Option String
  key : Option String
deriving DecidableEq

/-- `evaluate_match` (main.py line 73).  The similarity function `sim`
abstracts `compute_similarity` (difflib's `SequenceMatcher(...).ratio()`,
Python standard library, external to the repository); the float
thresholds `0.80` and `0.76` are idealised as exact rationals. -/
def evaluate_match (sim : String → String → ℚ) (entry : Entry)
    (cleaned_target_title : String) (target_metadata : ItemData) : Option Match :=
  let data := entry.data
  let candidate_title := data.title.getD ""
  let cleaned_candidate_title := clean_title candidate_title
  if truthy data.DOI && truthy target_metadata.DOI &&
      (stripLower (data.DOI.getD "") == stripLower (target_metadata.DOI.getD "")) then
    some ⟨candidate_title, 1, 999, data.DOI, data.ISSN, data.creators,
      data.date, data.itemType, entry.key⟩
  else if truthy data.ISSN && truthy target_metadata.ISSN &&
      (stripLower (data.ISSN.getD "") == stripLower (target_metadata.ISSN.getD "")) then
    some ⟨candidate_title, 1, 999, data.DOI, data.ISSN, data.creators,
      data.date, data.itemType, entry.key⟩
  else
    let similarity := sim cleaned_target_title cleaned_candidate_title
    let metadata_score := compare_metadata data target_metadata
    if mkRat 4 5 ≤ similarity ∨ (mkRat 19 25 ≤ similarity ∧ 5 ≤ metadata_score) then
      some ⟨candidate_title, similarity, metadata_score, data.DOI, data.ISSN,
        data.creators, data.date, data.itemType, entry.key⟩
    else none

/-- `zotero_query` (main.py line 66): strip markup from the query string
and call the Zotero search API; the API itself (`zot.items`) is the
external Search Provider, passed in as `search`, and its error handling
(exceptions become an empty list) is part of that collaborator's
behaviour. -/
def zotero_query (search : String → List Entry) (query_string : String) : List Entry :=
  search (strip_markup query_string)

/-- Python tuple comparison `(score, similarity)`, strictly. -/
def keyLt (m x : Match) : Prop :=
  m.score < x.score ∨ (m.score = x.score ∧ m.similarity < x.similarity)

instance (m x : Match) : Decidable (keyLt m x) := by
  unfold keyLt
  infer_instance

/-- Stable insertion of one match into a list sorted descending by
`(score, similarity)`: an element stays ahead only when strictly
greater, so earlier list elements keep their place on ties — the
behaviour of Python's stable `list.sort(..., reverse=True)`. -/
def insertDesc (m : Match) : List Match → List Match
  | [] => [m]
  | x :: xs => if keyLt m x then x :: insertDesc m xs else m :: x :: xs

/-- `matches.sort(key=lambda x: (x['score'], x['similarity']), reverse=True)`:
stable descending sort, embedded as stable insertion sort (extensionally
equal to any stable sort by the same key). -/
def sortMatches (l : List Match) : List Match := l.foldr insertDesc []

/-- The inner helper `remove_leading_articles` of `find_matching_titles`
(main.py line 129): drop one leading article "the"/"a"/"an"
(case-insensitive). -/
def remove_leading_articles (text : String) : String :=
  let words := pySplit text
  match words with
  | [] => text
  | w :: rest =>
    if pyLower w = "the" || pyLower w = "a" || pyLower w = "an" then joinSpace rest
    else text

/-- The creator-name list comprehension of the fallback query in
`find_matching_titles` (main.py lines 164–167): normalized names of the
dict-shaped creators, in order. -/
def creatorNames (creators : List Creator) : List String :=
  creators.filterMap fun c =>
    match c with
    | .mk f ln _ => some (normalize_author_name (creatorRawName f ln))
    | .junk => none

/-- `find_matching_titles` (main.py line 127): clean the title, strip one
leading article, truncate to `query_len` and strip to build the query;
search, evaluate every candidate against the (article-stripped) cleaned
title, and return the sorted matches; on no matches fall back to one
creator-name query. -/
def find_matching_titles (sim : String → String → ℚ) (search : String → List Entry)
    (title : String) (metadata : ItemData) (query_len : ℕ) : List Match :=
  let cleaned_title := clean_title title
  let cleaned_title := remove_leading_articles cleaned_title
  let query_string := pyStrip ⟨cleaned_title.data.take query_len⟩
  let queries := [query_string]
  let search_results := queries.flatMap (zotero_query search)
  let matchList := search_results.filterMap fun item =>
    evaluate_match sim item cleaned_title metadata
  if !matchList.isEmpty then sortMatches matchList
  else
    let creators := metadata.creators
    if !creators.isEmpty then
      let creator_query := pyStrip (joinSpace (creatorNames creators))
      if !creator_query.isEmpty then
        let search_results := zotero_query search creator_query
        let matchList := search_results.filterMap fun item =>
          evaluate_match sim item cleaned_title metadata
        if !matchList.isEmpty then sortMatches matchList else matchList
      else matchList
    else matchList

/-- The orchestrator as the spec describes it (refinement comparison for
the claim that similarity is computed on `clean_title(title)` itself):
identical to `find_matching_titles` except that the candidates are
evaluated against the cleaned title before article removal, the article
stripping being used only for the query string. -/
def find_matching_titles_specTitle (sim : String → String → ℚ)
    (search : String → List Entry) (title : String) (metadata : ItemData)
    (query_len : ℕ) : List Match :=
  let cleaned_title := clean_title title
  let query_title := remove_leading_articles cleaned_title
  let query_string := pyStrip ⟨query_title.data.take query_len⟩
  let queries := [query_string]
  let search_results := queries.flatMap (zotero_query search)
  let matchList := search_results.filterMap fun item =>
    evaluate_match sim item cleaned_title metadata
  if !matchList.isEmpty then sortMatches matchList
  else
    let creators := metadata.creators
    if !creators.isEmpty then
      let creator_query := pyStrip (joinSpace (creatorNames creators))
      if !creator_query.isEmpty then
        let search_results := zotero_query search creator_query
        let matchList := search_results.filterMap fun item =>
          evaluate_match sim item cleaned_title metadata
        if !matchList.isEmpty then sortMatches matchList else matchList
      else matchList
    else matchList

/-- `adaptive_query` (main.py line 227): try the truncation lengths in
order and return the first non-empty result list, else the empty list. -/
def adaptive_query (sim : String → String → ℚ) (search : String → List Entry)
    (title : String) (metadata : ItemData) : List ℕ → List Match
  | [] => []
  | len :: rest =>
    let results := find_matching_titles sim search title metadata len
    if !results.isEmpty then results
    else adaptive_query sim search title metadata rest

/-- An `ItemData` with the junk (non-dict) creator entries removed. -/
def dropJunkCreators (d : ItemData) : ItemData :=
  ⟨d.title, d.DOI, d.ISSN, d.date, d.itemType,
    d.creators.filter fun c => match c with | .junk => false | _ => true⟩

/-- A string free of the markup and dash characters that the early
pipeline stages act on: no angle-bracket opener, no inline-math
delimiters, no hyphen and no Unicode dash. -/
def Plain (l : List Char) : Prop :=
  ∀ c ∈ l, c ≠ '<' ∧ c ≠ '$' ∧ c ≠ '\\' ∧ c ≠ '-' ∧ isUDash c = false

instance (l : List Char) : Decidable (Plain l) := by
  unfold Plain
  infer_instance

/-- The pair constraint of a punctuation-stable string: no punctuation
character immediately followed by whitespace. -/
def RPW (a b : Char) : Prop := ¬(isPunct a = true ∧ pyWs b = true)

/-- A punctuation-stable string: no punctuation run precedes whitespace
or the end of the string (the fixed points of `punctSub`). -/
def GoodP (l : List Char) : Prop :=
  l.Chain' RPW ∧ ∀ c ∈ l.getLast?, isPunct c = false

/-- A whitespace-normalized string: every whitespace character is a
plain space and no two whitespace characters are adjacent. -/
def WSp (l : List Char) : Prop :=
  (∀ c ∈ l, pyWs c = true → c = ' ') ∧
  l.Chain' fun a b => ¬(pyWs a = true ∧ pyWs b = true)

/- ===================== helper lemmas ===================== -/

/-- The exact-DOI branch of `evaluate_match`: equal truthy DOIs give the
sentinel match. -/
theorem evaluate_match_doi (sim : String → String → ℚ) (entry : Entry)
    (ctt : String) (tm : ItemData)
    (h1 : truthy entry.data.DOI = true) (h2 : truthy tm.DOI = true)
    (h3 : stripLower (entry.data.DOI.getD "") = stripLower (tm.DOI.getD "")) :
    evaluate_match sim entry ctt tm =
      some ⟨entry.data.title.getD "", 1, 999, entry.data.DOI, entry.data.ISSN,
        entry.data.creators, entry.data.date, entry.data.itemType, entry.key⟩ := by
  unfold evaluate_match
  dsimp only
  rw [h1, h2, h3]
  simp

theorem mem_insertDesc (x m : Match) (l : List Match) :
    x ∈ insertDesc m l ↔ x = m ∨ x ∈ l := by
  induction l with
  | nil => simp [insertDesc]
  | cons a t ih =>
    rw [insertDesc]
    split
    · simp only [List.mem_cons, ih]
      tauto
    · simp only [List.mem_cons]

theorem mem_sortMatches (x : Match) (l : List Match) :
    x ∈ sortMatches l ↔ x ∈ l := by
  induction l with
  | nil => simp [sortMatches]
  | cons a t ih =>
    show x ∈ insertDesc a (sortMatches t) ↔ _
    rw [mem_insertDesc]
    simp only [List.mem_cons, ih]

theorem creatorNames_filter_junk (l : List Creator) :
    ((l.filter fun c => match c with | .junk => false | _ => true).filterMap fun c =>
      match c with
      | .mk f ln _ => some (normalize_author_name (creatorRawName f ln))
      | .junk => none) =
    (l.filterMap fun c =>
      match c with
      | .mk f ln _ => some (normalize_author_name (creatorRawName f ln))
      | .junk => none) := by
  induction l with
  | nil => rfl
  | cons c t ih =>
    cases c with
    | mk f ln g => simpa using ih
    | junk => simpa using ih

theorem extract_author_last_names_filter_junk (l : List Creator) :
    extract_author_last_names (l.filter fun c => match c with | .junk => false | _ => true) =
      extract_author_last_names l := by
  unfold extract_author_last_names
  rw [creatorNames_filter_junk]

theorem truthy_some_of_ne (d : String) (h : d ≠ "") : truthy (some d) = true := by
  unfold truthy
  simpa only [Option.getD_some, bne_iff_ne, ne_eq] using h

theorem pyStripL_all_ws (l : List Char) (h : ∀ c ∈ l, pyWs c = true) :
    pyStripL l = [] := by
  have h1 : l.dropWhile pyWs = [] := List.dropWhile_eq_nil_iff.mpr (by simpa using h)
  unfold pyStripL
  rw [h1]
  simp

theorem removeTagsF_id (n : ℕ) (l : List Char) (h : ∀ c ∈ l, c ≠ '<') :
    removeTagsF n l = l := by
  induction n generalizing l with
  | zero => rfl
  | succ n ih =>
    cases l with
    | nil => rfl
    | cons c rest =>
      have hc : c ≠ '<' := h c (List.mem_cons_self c rest)
      simp only [removeTagsF, if_neg hc]
      rw [ih rest fun d hd => h d (List.mem_cons_of_mem c hd)]

theorem dollarSubF_id (n : ℕ) (l : List Char) (h : ∀ c ∈ l, c ≠ '$') :
    dollarSubF n l = l := by
  induction n generalizing l with
  | zero => rfl
  | succ n ih =>
    cases l with
    | nil => rfl
    | cons c rest =>
      have hc : c ≠ '$' := h c (List.mem_cons_self c rest)
      simp only [dollarSubF, if_neg hc]
      rw [ih rest fun d hd => h d (List.mem_cons_of_mem c hd)]

theorem parenSubF_id (n : ℕ) (l : List Char) (h : ∀ c ∈ l, c ≠ '\\') :
    parenSubF n l = l := by
  induction n generalizing l with
  | zero => rfl
  | succ n ih =>
    cases l with
    | nil => rfl
    | cons c rest =>
      have hc : c ≠ '\\' := h c (List.mem_cons_self c rest)
      simp only [parenSubF, if_neg hc]
      rw [ih rest fun d hd => h d (List.mem_cons_of_mem c hd)]

theorem mmlBlockSubF_id (n : ℕ) (l : List Char) (h : ∀ c ∈ l, c ≠ '<') :
    mmlBlockSubF n l = l := by
  induction n generalizing l with
  | zero => rfl
  | succ n ih =>
    cases l with
    | nil => rfl
    | cons c rest =>
      have hc : c ≠ '<' := h c (List.mem_cons_self c rest)
      simp only [mmlBlockSubF, if_neg hc]
      rw [ih rest fun d hd => h d (List.mem_cons_of_mem c hd)]

theorem mmlTagSubF_id (n : ℕ) (l : List Char) (h : ∀ c ∈ l, c ≠ '<') :
    mmlTagSubF n l = l := by
  induction n generalizing l with
  | zero => rfl
  | succ n ih =>
    cases l with
    | nil => rfl
    | cons c rest =>
      have hc : c ≠ '<' := h c (List.mem_cons_self c rest)
      simp only [mmlTagSubF, if_neg hc]
      rw [ih rest fun d hd => h d (List.mem_cons_of_mem c hd)]

theorem dashSub_id (l : List Char) (h : ∀ c ∈ l, isUDash c = false) :
    dashSub l = l := by
  induction l with
  | nil => rfl
  | cons c rest ih =>
    have hc : ¬(isUDash c = true) := by
      rw [h c (List.mem_cons_self c rest)]
      exact Bool.false_ne_true
    simp only [dashSub, List.map_cons, if_neg hc]
    have := ih fun d hd => h d (List.mem_cons_of_mem c hd)
    simp only [dashSub] at this
    rw [this]

theorem hyphenSubF_succ_cons (n : ℕ) (c : Char) (rest : List Char) :
    hyphenSubF (n + 1) (c :: rest) =
    if c = '-' then '-' :: hyphenSubF n (rest.dropWhile pyWs)
    else if pyWs c then
      match (c :: rest).dropWhile pyWs with
      | '-' :: r => '-' :: hyphenSubF n (r.dropWhile pyWs)
      | rest2 => (c :: rest).takeWhile pyWs ++ hyphenSubF n rest2
    else c :: hyphenSubF n rest := rfl

theorem hyphenSubF_id (n : ℕ) (l : List Char) (h : ∀ c ∈ l, c ≠ '-') :
    hyphenSubF n l = l := by
  induction n generalizing l with
  | zero => rfl
  | succ n ih =>
    cases l with
    | nil => rfl
    | cons c rest =>
      have hc : c ≠ '-' := h c (List.mem_cons_self c rest)
      rw [hyphenSubF_succ_cons, if_neg hc]
      by_cases hw : pyWs c = true
      · rw [if_pos hw]
        have hsub : ∀ d ∈ (c :: rest).dropWhile pyWs, d ≠ '-' := fun d hd =>
          h d ((List.dropWhile_sublist pyWs).subset hd)
        split
        · next r heq =>
          exact absurd rfl (hsub '-' (heq ▸ List.mem_cons_self '-' r))
        · next =>
          rw [ih _ hsub]
          exact List.takeWhile_append_dropWhile pyWs (c :: rest)
      · rw [if_neg hw]
        rw [ih rest fun d hd => h d (List.mem_cons_of_mem c hd)]

theorem mem_pyStripL (c : Char) (l : List Char) (hc : c ∈ pyStripL l) : c ∈ l := by
  unfold pyStripL at hc
  rw [List.mem_reverse] at hc
  have h2 := (List.dropWhile_sublist pyWs).subset hc
  rw [List.mem_reverse] at h2
  exact (List.dropWhile_sublist pyWs).subset h2

theorem strip_markup_plain (s : String) (h : Plain s.data) :
    strip_markup s = ⟨pyStripL s.data⟩ := by
  unfold strip_markup bs4GetText removeTags dollarSub parenSub
  rw [removeTagsF_id _ _ fun c hc => (h c hc).1,
    dollarSubF_id _ _ fun c hc => (h c hc).2.1,
    parenSubF_id _ _ fun c hc => (h c hc).2.2.1]

theorem clean_title_plain (s : String) (h : Plain s.data) :
    clean_title s = ⟨pyStripL (collapseWs (punctSub (pyStripL s.data)))⟩ := by
  unfold clean_title clean_mathml removeTags mmlBlockSub mmlTagSub
  rw [strip_markup_plain s h]
  have hmem : ∀ c ∈ pyStripL s.data, c ∈ s.data := fun c hc => mem_pyStripL c s.data hc
  show String.mk (collapse_whitespace (punctSub (hyphenSub (dashSub
    (removeTagsF _ (mmlTagSubF _ (mmlBlockSubF _ (pyStripL s.data)))))))) = _
  rw [mmlBlockSubF_id _ _ fun c hc => (h c (hmem c hc)).1]
  rw [mmlTagSubF_id _ _ fun c hc => (h c (hmem c hc)).1]
  rw [removeTagsF_id _ _ fun c hc => (h c (hmem c hc)).1]
  rw [dashSub_id _ fun c hc => (h c (hmem c hc)).2.2.2.2]
  unfold hyphenSub
  rw [hyphenSubF_id _ _ fun c hc => (h c (hmem c hc)).2.2.2.1]
  rfl



theorem punct_not_ws (c : Char) (h : isPunct c = true) : pyWs c = false := by
  have h2 : ((((c = '.' ∨ c = ',') ∨ c = ';') ∨ c = ':') ∨ c = '!') ∨ c = '?' := by
    simpa [isPunct] using h
  rcases h2 with ((((rfl | rfl) | rfl) | rfl) | rfl) | rfl <;> rfl

theorem ws_not_punct (c : Char) (h : pyWs c = true) : isPunct c = false := by
  cases hp : isPunct c with
  | false => rfl
  | true => rw [punct_not_ws c hp] at h; exact absurd h Bool.false_ne_true

theorem head?_dropWhile_ws (l : List Char) :
    ∀ h ∈ (l.dropWhile pyWs).head?, pyWs h = false := by
  induction l with
  | nil => intro h hh; cases hh
  | cons c rest ih =>
    by_cases hc : pyWs c = true
    · rw [List.dropWhile_cons_of_pos hc]
      exact ih
    · rw [List.dropWhile_cons_of_neg hc]
      intro h hh
      rw [List.head?_cons] at hh
      cases hh
      simpa using hc

theorem dropWhile_eq_self_of_head (p : Char → Bool) (l : List Char)
    (h : ∀ c ∈ l.head?, p c = false) : l.dropWhile p = l := by
  cases l with
  | nil => rfl
  | cons c rest =>
    have hc : p c = false := h c rfl
    rw [List.dropWhile_cons_of_neg (by rw [hc]; exact Bool.false_ne_true)]

theorem pyStripL_decomp (l : List Char) :
    ∃ t1 t2, l = t1 ++ pyStripL l ++ t2 ∧
      (∀ c ∈ t1, pyWs c = true) ∧ (∀ c ∈ t2, pyWs c = true) := by
  refine ⟨l.takeWhile pyWs, ((l.dropWhile pyWs).reverse.takeWhile pyWs).reverse, ?_, ?_, ?_⟩
  · conv_lhs => rw [← List.takeWhile_append_dropWhile (p := pyWs) (l := l)]
    rw [List.append_assoc]
    congr 1
    conv_lhs => rw [← List.reverse_reverse (l.dropWhile pyWs),
      ← List.takeWhile_append_dropWhile (p := pyWs) (l := (l.dropWhile pyWs).reverse)]
    rw [List.reverse_append]
    rfl
  · exact fun c hc => List.mem_takeWhile_imp hc
  · intro c hc
    rw [List.mem_reverse] at hc
    exact List.mem_takeWhile_imp hc

theorem getLast?_pyStripL_not_ws (l : List Char) :
    ∀ h ∈ (pyStripL l).getLast?, pyWs h = false := by
  intro h hh
  unfold pyStripL at hh
  rw [List.getLast?_reverse] at hh
  exact head?_dropWhile_ws _ h hh

theorem head?_pyStripL_not_ws (l : List Char) :
    ∀ h ∈ (pyStripL l).head?, pyWs h = false := by
  intro h hh
  unfold pyStripL at hh
  rw [List.head?_reverse] at hh
  have hsplit : ((l.dropWhile pyWs).reverse.takeWhile pyWs) ++
      ((l.dropWhile pyWs).reverse.dropWhile pyWs) = (l.dropWhile pyWs).reverse :=
    List.takeWhile_append_dropWhile pyWs (l.dropWhile pyWs).reverse
  cases hw : (l.dropWhile pyWs).reverse.dropWhile pyWs with
  | nil => rw [hw] at hh; cases hh
  | cons a w2 =>
    have h1 : ((l.dropWhile pyWs).reverse).getLast? =
        ((l.dropWhile pyWs).reverse.dropWhile pyWs).getLast? := by
      conv_lhs => rw [← hsplit]
      exact List.getLast?_append_of_ne_nil _ (by rw [hw]; exact List.cons_ne_nil a w2)
    rw [← h1, List.getLast?_reverse] at hh
    exact head?_dropWhile_ws l h hh

theorem pyStripL_idem (l : List Char) : pyStripL (pyStripL l) = pyStripL l := by
  show (((pyStripL l).dropWhile pyWs).reverse.dropWhile pyWs).reverse = pyStripL l
  rw [dropWhile_eq_self_of_head pyWs (pyStripL l) (head?_pyStripL_not_ws l)]
  rw [dropWhile_eq_self_of_head pyWs (pyStripL l).reverse (by
    intro h hh
    rw [List.head?_reverse] at hh
    exact getLast?_pyStripL_not_ws l h hh)]
  exact List.reverse_reverse _

theorem chain'_pyStripL (R : Char → Char → Prop) (l : List Char)
    (h : l.Chain' R) : (pyStripL l).Chain' R := by
  obtain ⟨t1, t2, hdec, -, -⟩ := pyStripL_decomp l
  rw [hdec] at h
  exact (List.chain'_append.mp (List.chain'_append.mp h).1).2.1

theorem goodP_tail (c : Char) (l : List Char) (h : GoodP (c :: l)) : GoodP l := by
  refine ⟨h.1.tail, ?_⟩
  cases l with
  | nil => intro x hx; cases hx
  | cons d t => intro x hx; exact h.2 x (by rw [List.getLast?_cons_cons]; exact hx)

theorem wsp_tail (c : Char) (l : List Char) (h : WSp (c :: l)) : WSp l :=
  ⟨fun d hd => h.1 d (List.mem_cons_of_mem c hd), h.2.tail⟩

theorem chain'_RPW_all_punct (m : List Char) (h : ∀ c ∈ m, isPunct c = true) :
    m.Chain' RPW := by
  induction m with
  | nil => exact List.chain'_nil
  | cons a t ih =>
    rw [List.chain'_cons']
    refine ⟨?_, ih fun c hc => h c (List.mem_cons_of_mem a hc)⟩
    intro y hy
    have hy2 : y ∈ t := List.mem_of_mem_head? hy
    rintro ⟨-, hws⟩
    rw [punct_not_ws y (h y (List.mem_cons_of_mem a hy2))] at hws
    exact Bool.false_ne_true hws

theorem goodP_punctAux (l : List Char) : ∀ pend, (∀ c ∈ pend, isPunct c = true) →
    GoodP (punctAux pend l) := by
  induction l with
  | nil => exact fun pend hp => ⟨List.chain'_nil, fun c hc => nomatch hc⟩
  | cons c rest ih =>
    intro pend hp
    by_cases hcp : isPunct c = true
    · rw [show punctAux pend (c :: rest) = punctAux (c :: pend) rest from by
        simp only [punctAux, if_pos hcp]]
      refine ih (c :: pend) ?_
      intro d hd
      rcases List.mem_cons.mp hd with rfl | hd2
      · exact hcp
      · exact hp d hd2
    · by_cases hw : pyWs c = true
      · rw [show punctAux pend (c :: rest) = c :: punctAux [] rest from by
          simp only [punctAux, if_neg hcp, if_pos hw]]
        obtain ⟨hch, hlast⟩ := ih [] fun d hd => nomatch hd
        refine ⟨List.chain'_cons'.mpr ⟨?_, hch⟩, ?_⟩
        · intro y hy
          rintro ⟨h1, -⟩
          exact hcp h1
        · cases hX : punctAux [] rest with
          | nil =>
            intro x hx
            cases hx
            simpa using hcp
          | cons d t =>
            rw [List.getLast?_cons_cons]
            intro x hx
            exact hlast x (by rw [hX]; exact hx)
      · rw [show punctAux pend (c :: rest) = pend.reverse ++ c :: punctAux [] rest from by
          simp only [punctAux, if_neg hcp, if_neg hw]]
        obtain ⟨hch, hlast⟩ := ih [] fun d hd => nomatch hd
        constructor
        · rw [List.chain'_append]
          refine ⟨chain'_RPW_all_punct _ ?_, List.chain'_cons'.mpr ⟨?_, hch⟩, ?_⟩
          · intro d hd
            rw [List.mem_reverse] at hd
            exact hp d hd
          · intro y hy
            rintro ⟨h1, -⟩
            exact hcp h1
          · intro x hx y hy
            rw [List.head?_cons] at hy
            cases hy
            rintro ⟨-, h2⟩
            exact hw h2
        · intro x hx
          rw [List.getLast?_append_of_ne_nil _ (List.cons_ne_nil _ _)] at hx
          cases hX : punctAux [] rest with
          | nil =>
            rw [hX] at hx
            cases hx
            simpa using hcp
          | cons d t =>
            rw [hX, List.getLast?_cons_cons] at hx
            exact hlast x (by rw [hX]; exact hx)

theorem punctAux_eq_self (l : List Char) : ∀ pend, (∀ c ∈ pend, isPunct c = true) →
    GoodP (pend.reverse ++ l) → punctAux pend l = pend.reverse ++ l := by
  induction l with
  | nil =>
    intro pend hp hg
    cases pend with
    | nil => rfl
    | cons p ps =>
      exfalso
      have hx : p ∈ ((p :: ps).reverse ++ ([] : List Char)).getLast? := by
        rw [List.append_nil, List.getLast?_reverse, List.head?_cons]
        rfl
      have h2 := hg.2 p hx
      rw [hp p (List.mem_cons_self p ps)] at h2
      exact absurd h2 (by decide)
  | cons c rest ih =>
    intro pend hp hg
    by_cases hcp : isPunct c = true
    · rw [show punctAux pend (c :: rest) = punctAux (c :: pend) rest from by
        simp only [punctAux, if_pos hcp]]
      have hg2 : GoodP ((c :: pend).reverse ++ rest) := by
        rw [List.reverse_cons, List.append_assoc]
        simpa using hg
      rw [ih (c :: pend) (by
        intro d hd
        rcases List.mem_cons.mp hd with rfl | hd2
        · exact hcp
        · exact hp d hd2) hg2]
      rw [List.reverse_cons, List.append_assoc]
      rfl
    · by_cases hw : pyWs c = true
      · cases pend with
        | cons p ps =>
          exfalso
          have hpair := (List.chain'_append.mp hg.1).2.2
          have h1 : p ∈ ((p :: ps).reverse).getLast? := by
            rw [List.getLast?_reverse, List.head?_cons]
            rfl
          have h2 : c ∈ (c :: rest).head? := by rw [List.head?_cons]; rfl
          exact hpair p h1 c h2 ⟨hp p (List.mem_cons_self p ps), hw⟩
        | nil =>
          rw [show punctAux ([] : List Char) (c :: rest) = c :: punctAux [] rest from by
            simp only [punctAux, if_neg hcp, if_pos hw]]
          have hg2 : GoodP rest := goodP_tail c rest (by simpa using hg)
          rw [ih [] (fun d hd => nomatch hd) (by simpa using hg2)]
          rfl
      · rw [show punctAux pend (c :: rest) = pend.reverse ++ c :: punctAux [] rest from by
          simp only [punctAux, if_neg hcp, if_neg hw]]
        have hcrest : GoodP (c :: rest) := by
          constructor
          · exact (List.chain'_append.mp hg.1).2.1
          · intro x hx
            refine hg.2 x ?_
            rw [List.getLast?_append_of_ne_nil _ (List.cons_ne_nil _ _)]
            exact hx
        have hg2 : GoodP rest := goodP_tail c rest hcrest
        rw [ih [] (fun d hd => nomatch hd) (by simpa using hg2)]
        rfl

theorem goodP_pyStripL (l : List Char) (hg : GoodP l) : GoodP (pyStripL l) := by
  obtain ⟨t1, t2, hdec, -, ht2⟩ := pyStripL_decomp l
  refine ⟨chain'_pyStripL RPW l hg.1, ?_⟩
  cases hy : pyStripL l with
  | nil => intro x hx; cases hx
  | cons a y2 =>
    intro x hx
    cases t2 with
    | nil =>
      refine hg.2 x ?_
      rw [List.append_nil] at hdec
      rw [hdec, List.getLast?_append_of_ne_nil _ (by rw [hy]; exact List.cons_ne_nil a y2),
        hy]
      exact hx
    | cons e t3 =>
      have hch := hg.1
      rw [hdec] at hch
      have hb := (List.chain'_append.mp hch).2.2
      have hxl : x ∈ (t1 ++ pyStripL l).getLast? := by
        rw [List.getLast?_append_of_ne_nil _ (by rw [hy]; exact List.cons_ne_nil a y2), hy]
        exact hx
      have hrpw := hb x hxl e (by rw [List.head?_cons]; rfl)
      by_cases hpx : isPunct x = true
      · exact absurd ⟨hpx, ht2 e (List.mem_cons_self e t3)⟩ hrpw
      · simpa using hpx

theorem wsp_pyStripL (l : List Char) (h : WSp l) : WSp (pyStripL l) :=
  ⟨fun c hc hw => h.1 c (mem_pyStripL c l hc) hw, chain'_pyStripL _ l h.2⟩

theorem collapseAux_cons_ws_true (c : Char) (rest : List Char) (hw : pyWs c = true) :
    collapseAux true (c :: rest) = collapseAux true rest := by
  rw [collapseAux, if_pos hw]
  rfl

theorem collapseAux_cons_ws_false (c : Char) (rest : List Char) (hw : pyWs c = true) :
    collapseAux false (c :: rest) = ' ' :: collapseAux true rest := by
  rw [collapseAux, if_pos hw]
  rfl

theorem collapseAux_cons_not_ws (b : Bool) (c : Char) (rest : List Char)
    (hw : pyWs c = false) : collapseAux b (c :: rest) = c :: collapseAux false rest := by
  rw [collapseAux, if_neg (by rw [hw]; exact Bool.false_ne_true)]

theorem head?_collapseAux_true (l : List Char) :
    ∀ h ∈ (collapseAux true l).head?, pyWs h = false := by
  induction l with
  | nil => intro h hh; cases hh
  | cons c rest ih =>
    by_cases hw : pyWs c = true
    · rw [collapseAux_cons_ws_true c rest hw]
      exact ih
    · have hwf : pyWs c = false := by simpa using hw
      rw [collapseAux_cons_not_ws true c rest hwf]
      intro h hh
      rw [List.head?_cons] at hh
      cases hh
      exact hwf

theorem collapseAux_false_eq_nil (l : List Char) (h : collapseAux false l = []) :
    l = [] := by
  cases l with
  | nil => rfl
  | cons c rest =>
    exfalso
    by_cases hw : pyWs c = true
    · rw [collapseAux_cons_ws_false c rest hw] at h
      exact List.cons_ne_nil _ _ h
    · rw [collapseAux_cons_not_ws false c rest (by simpa using hw)] at h
      exact List.cons_ne_nil _ _ h

theorem goodP_collapseAux (l : List Char) : GoodP l → ∀ b, GoodP (collapseAux b l) := by
  induction l with
  | nil => exact fun _ _ => ⟨List.chain'_nil, fun c hc => nomatch hc⟩
  | cons c rest ih =>
    intro hg b
    have ihb := ih (goodP_tail c rest hg)
    by_cases hw : pyWs c = true
    · cases b with
      | true =>
        rw [collapseAux_cons_ws_true c rest hw]
        exact ihb true
      | false =>
        rw [collapseAux_cons_ws_false c rest hw]
        constructor
        · refine List.chain'_cons'.mpr ⟨?_, (ihb true).1⟩
          intro y hy
          rintro ⟨h1, -⟩
          exact absurd h1 (by decide)
        · cases hX : collapseAux true rest with
          | nil =>
            intro x hx
            cases hx
            decide
          | cons d t =>
            rw [List.getLast?_cons_cons]
            intro x hx
            exact (ihb true).2 x (by rw [hX]; exact hx)
    · have hwf : pyWs c = false := by simpa using hw
      rw [collapseAux_cons_not_ws b c rest hwf]
      constructor
      · refine List.chain'_cons'.mpr ⟨?_, (ihb false).1⟩
        intro y hy
        rintro ⟨h1, h2⟩
        cases rest with
        | nil => rw [show collapseAux false [] = [] from rfl] at hy; cases hy
        | cons d r =>
          have hcd := (List.chain'_cons'.mp hg.1).1 d (by rw [List.head?_cons]; rfl)
          have hdws : pyWs d = false := by
            by_cases hd : pyWs d = true
            · exact absurd ⟨h1, hd⟩ hcd
            · simpa using hd
          rw [collapseAux_cons_not_ws false d r hdws, List.head?_cons] at hy
          cases hy
          rw [hdws] at h2
          exact absurd h2 (by decide)
      · cases hX : collapseAux false rest with
        | nil =>
          have hr : rest = [] := collapseAux_false_eq_nil rest hX
          subst hr
          intro x hx
          cases hx
          exact hg.2 c rfl
        | cons d t =>
          rw [List.getLast?_cons_cons]
          intro x hx
          exact (ihb false).2 x (by rw [hX]; exact hx)

theorem wsp_collapseAux (l : List Char) : ∀ b, WSp (collapseAux b l) := by
  induction l with
  | nil => exact fun _ => ⟨fun c hc => (nomatch hc), List.chain'_nil⟩
  | cons c rest ih =>
    intro b
    by_cases hw : pyWs c = true
    · cases b with
      | true =>
        rw [collapseAux_cons_ws_true c rest hw]
        exact ih true
      | false =>
        rw [collapseAux_cons_ws_false c rest hw]
        constructor
        · intro d hd hwd
          rcases List.mem_cons.mp hd with rfl | hd2
          · rfl
          · exact (ih true).1 d hd2 hwd
        · refine List.chain'_cons'.mpr ⟨?_, (ih true).2⟩
          intro y hy
          rintro ⟨-, h2⟩
          rw [head?_collapseAux_true rest y hy] at h2
          exact absurd h2 (by decide)
    · have hwf : pyWs c = false := by simpa using hw
      rw [collapseAux_cons_not_ws b c rest hwf]
      constructor
      · intro d hd hwd
        rcases List.mem_cons.mp hd with rfl | hd2
        · rw [hwf] at hwd; exact absurd hwd (by decide)
        · exact (ih false).1 d hd2 hwd
      · refine List.chain'_cons'.mpr ⟨?_, (ih false).2⟩
        intro y hy
        rintro ⟨h1, -⟩
        rw [hwf] at h1
        exact absurd h1 (by decide)

theorem collapseAux_eq_self (l : List Char) : WSp l →
    collapseAux false l = l ∧
      ((∀ x ∈ l.head?, pyWs x = false) → collapseAux true l = l) := by
  induction l with
  | nil => exact fun _ => ⟨rfl, fun _ => rfl⟩
  | cons c rest ih =>
    intro h
    obtain ⟨ih1, ih2⟩ := ih (wsp_tail c rest h)
    by_cases hw : pyWs c = true
    · have hsp : c = ' ' := h.1 c (List.mem_cons_self c rest) hw
      constructor
      · rw [collapseAux_cons_ws_false c rest hw]
        have hhead : ∀ x ∈ rest.head?, pyWs x = false := by
          intro x hx
          have h2 := (List.chain'_cons'.mp h.2).1 x hx
          by_cases hx2 : pyWs x = true
          · exact absurd ⟨hw, hx2⟩ h2
          · simpa using hx2
        rw [ih2 hhead, hsp]
      · intro hx
        exfalso
        have h3 := hx c (by rw [List.head?_cons]; rfl)
        rw [hw] at h3
        exact absurd h3 (by decide)
    · have hwf : pyWs c = false := by simpa using hw
      constructor
      · rw [collapseAux_cons_not_ws false c rest hwf, ih1]
      · intro _
        rw [collapseAux_cons_not_ws true c rest hwf, ih1]

theorem mem_punctAux (x : Char) (l : List Char) :
    ∀ pend, x ∈ punctAux pend l → x ∈ pend ∨ x ∈ l := by
  induction l with
  | nil => intro pend hx; exact absurd hx (List.not_mem_nil x)
  | cons c rest ih =>
    intro pend hx
    by_cases hcp : isPunct c = true
    · rw [show punctAux pend (c :: rest) = punctAux (c :: pend) rest from by
        simp only [punctAux, if_pos hcp]] at hx
      rcases ih (c :: pend) hx with h1 | h2
      · rcases List.mem_cons.mp h1 with rfl | h3
        · exact Or.inr (List.mem_cons_self x rest)
        · exact Or.inl h3
      · exact Or.inr (List.mem_cons_of_mem c h2)
    · by_cases hw : pyWs c = true
      · rw [show punctAux pend (c :: rest) = c :: punctAux [] rest from by
          simp only [punctAux, if_neg hcp, if_pos hw]] at hx
        rcases List.mem_cons.mp hx with rfl | h2
        · exact Or.inr (List.mem_cons_self x rest)
        · rcases ih [] h2 with h3 | h4
          · exact absurd h3 (List.not_mem_nil x)
          · exact Or.inr (List.mem_cons_of_mem c h4)
      · rw [show punctAux pend (c :: rest) = pend.reverse ++ c :: punctAux [] rest from by
          simp only [punctAux, if_neg hcp, if_neg hw]] at hx
        rcases List.mem_append.mp hx with h1 | h2
        · exact Or.inl (List.mem_reverse.mp h1)
        · rcases List.mem_cons.mp h2 with rfl | h3
          · exact Or.inr (List.mem_cons_self x rest)
          · rcases ih [] h3 with h4 | h5
            · exact absurd h4 (List.not_mem_nil x)
            · exact Or.inr (List.mem_cons_of_mem c h5)

theorem mem_collapseAux (x : Char) (l : List Char) :
    ∀ b, x ∈ collapseAux b l → x = ' ' ∨ x ∈ l := by
  induction l with
  | nil => intro b hx; exact absurd hx (List.not_mem_nil x)
  | cons c rest ih =>
    intro b hx
    by_cases hw : pyWs c = true
    · cases b with
      | true =>
        rw [collapseAux_cons_ws_true c rest hw] at hx
        rcases ih true hx with h1 | h2
        · exact Or.inl h1
        · exact Or.inr (List.mem_cons_of_mem c h2)
      | false =>
        rw [collapseAux_cons_ws_false c rest hw] at hx
        rcases List.mem_cons.mp hx with rfl | h2
        · exact Or.inl rfl
        · rcases ih true h2 with h3 | h4
          · exact Or.inl h3
          · exact Or.inr (List.mem_cons_of_mem c h4)
    · rw [collapseAux_cons_not_ws b c rest (by simpa using hw)] at hx
      rcases List.mem_cons.mp hx with rfl | h2
      · exact Or.inr (List.mem_cons_self x rest)
      · rcases ih false h2 with h3 | h4
        · exact Or.inl h3
        · exact Or.inr (List.mem_cons_of_mem c h4)

theorem clean_core_idem (l : List Char) :
    pyStripL (collapseWs (punctSub (pyStripL
      (pyStripL (collapseWs (punctSub (pyStripL l))))))) =
    pyStripL (collapseWs (punctSub (pyStripL l))) := by
  have hg0 : GoodP (punctSub (pyStripL l)) :=
    goodP_punctAux (pyStripL l) [] fun c hc => nomatch hc
  have hg1 : GoodP (collapseWs (punctSub (pyStripL l))) :=
    goodP_collapseAux _ hg0 false
  have hw1 : WSp (collapseWs (punctSub (pyStripL l))) := wsp_collapseAux _ false
  have hg2 : GoodP (pyStripL (collapseWs (punctSub (pyStripL l)))) :=
    goodP_pyStripL _ hg1
  have hw2 : WSp (pyStripL (collapseWs (punctSub (pyStripL l)))) := wsp_pyStripL _ hw1
  have hs : pyStripL (pyStripL (collapseWs (punctSub (pyStripL l)))) =
      pyStripL (collapseWs (punctSub (pyStripL l))) := pyStripL_idem _
  have hp : punctSub (pyStripL (collapseWs (punctSub (pyStripL l)))) =
      pyStripL (collapseWs (punctSub (pyStripL l))) := by
    have h2 := punctAux_eq_self (pyStripL (collapseWs (punctSub (pyStripL l)))) []
      (fun c hc => nomatch hc) hg2
    simpa [punctSub] using h2
  have hcw : collapseWs (pyStripL (collapseWs (punctSub (pyStripL l)))) =
      pyStripL (collapseWs (punctSub (pyStripL l))) := (collapseAux_eq_self _ hw2).1
  rw [hs, hp, hcw]
  exact hs

theorem plain_space : (' ' : Char) ≠ '<' ∧ (' ' : Char) ≠ '$' ∧ (' ' : Char) ≠ '\\' ∧
    (' ' : Char) ≠ '-' ∧ isUDash ' ' = false := by decide

theorem plain_clean_core (l : List Char) (h : Plain l) :
    Plain (pyStripL (collapseWs (punctSub (pyStripL l)))) := by
  intro c hc
  have h1 := mem_pyStripL c _ hc
  have h2 := mem_collapseAux c _ false h1
  rcases h2 with rfl | h3
  · exact plain_space
  · rcases mem_punctAux c _ [] h3 with h4 | h5
    · exact absurd h4 (List.not_mem_nil c)
    · exact h c (mem_pyStripL c _ h5)

/-- C5 counterexample: `clean_title` is not idempotent — on "a-. b" the
first pass removes the period (trailing punctuation before whitespace)
yielding "a- b", and the second pass then deletes the space next to the
hyphen, yielding "a-b". -/
theorem claim_C5_counterexample :
    clean_title (clean_title "a-. b") ≠ clean_title "a-. b" := by
  decide

/-- C5 (amended): `clean_title` is idempotent on every string containing
no angle-bracket opener, no inline-math delimiter (dollar or backslash),
and no hyphen or Unicode dash (whitespace of any kind and sentence
punctuation are allowed).  The unrestricted claim fails because
trailing-punctuation removal can expose new whitespace next to a hyphen
(see the counterexample), and whitespace collapsing can likewise expose
new inline-math pairs across newlines. -/
theorem claim_C5_idempotent_plain (s : String) (h : Plain s.data) :
    clean_title (clean_title s) = clean_title s := by
  rw [clean_title_plain s h]
  rw [clean_title_plain ⟨pyStripL (collapseWs (punctSub (pyStripL s.data)))⟩
    (plain_clean_core s.data h)]
  exact congrArg String.mk (clean_core_idem s.data)

/-- C5 witness: a plain punctuated title is a fixed point after one
cleaning. -/
theorem claim_C5_witness :
    clean_title (clean_title "Deep Learning. Vol 2; ") =
      clean_title "Deep Learning. Vol 2; " :=
  claim_C5_idempotent_plain "Deep Learning. Vol 2; " (by decide)

/- ===================== the claims ===================== -/

/-- C1: when neither the exact-DOI rule nor the exact-ISSN rule applies,
`evaluate_match` accepts the candidate iff the title similarity is at
least 0.80, or it is at least 0.76 and the metadata corroboration score
is at least 5. -/
theorem claim_C1_threshold_acceptance (sim : String → String → ℚ) (entry : Entry)
    (ctt : String) (tm : ItemData)
    (hd : (truthy entry.data.DOI && truthy tm.DOI &&
      (stripLower (entry.data.DOI.getD "") == stripLower (tm.DOI.getD ""))) = false)
    (hi : (truthy entry.data.ISSN && truthy tm.ISSN &&
      (stripLower (entry.data.ISSN.getD "") == stripLower (tm.ISSN.getD ""))) = false) :
    (evaluate_match sim entry ctt tm).isSome ↔
      (mkRat 4 5 ≤ sim ctt (clean_title (entry.data.title.getD "")) ∨
       (mkRat 19 25 ≤ sim ctt (clean_title (entry.data.title.getD "")) ∧
        5 ≤ compare_metadata entry.data tm)) := by
  unfold evaluate_match
  dsimp only
  rw [hd, hi]
  simp only [Bool.false_eq_true, if_false]
  split
  · next h => simp only [Option.isSome_some, true_iff]; exact h
  · next h => simp only [Option.isSome_none, Bool.false_eq_true, false_iff]; exact h

/-- C1 witness: a fully similar candidate with no identifiers is accepted. -/
theorem claim_C1_witness :
    (evaluate_match (fun _ _ => (1 : ℚ)) ⟨⟨none, none, none, none, none, []⟩, none⟩
      "t" ⟨none, none, none, none, none, []⟩).isSome :=
  (claim_C1_threshold_acceptance (fun _ _ => (1 : ℚ))
    ⟨⟨none, none, none, none, none, []⟩, none⟩ "t" ⟨none, none, none, none, none, []⟩
    (by decide) (by decide)).mpr (Or.inl (by decide))

/-- C2: a candidate/target pair with equal (trimmed, lower-cased)
non-empty DOIs is always accepted with score 999 and similarity 1,
whatever the similarity function says about the titles; and 999 is
strictly greater than anything `compare_metadata` can return. -/
theorem claim_C2_doi_sentinel :
    (∀ (sim : String → String → ℚ) (entry : Entry) (ctt : String) (tm : ItemData),
      truthy entry.data.DOI = true → truthy tm.DOI = true →
      stripLower (entry.data.DOI.getD "") = stripLower (tm.DOI.getD "") →
      ∃ m, evaluate_match sim entry ctt tm = some m ∧ m.score = 999 ∧ m.similarity = 1) ∧
    (∀ item target : ItemData, compare_metadata item target < 999) := by
  constructor
  · intro sim entry ctt tm h1 h2 h3
    exact ⟨_, evaluate_match_doi sim entry ctt tm h1 h2 h3, rfl, rfl⟩
  · intro item target
    unfold compare_metadata
    dsimp only
    split_ifs <;> norm_num

/-- C2 witness: equal DOIs up to case and surrounding space accept a
candidate with a completely different title (similarity function is
constantly 0). -/
theorem claim_C2_witness :
    ∃ m, evaluate_match (fun _ _ => (0 : ℚ))
      ⟨⟨some "Utterly Different", some "10.1000/ABC", none, none, none, []⟩, none⟩
      "Some Target Title" ⟨none, some " 10.1000/abc ", none, none, none, []⟩ = some m ∧
      m.score = 999 ∧ m.similarity = 1 :=
  claim_C2_doi_sentinel.1 (fun _ _ => (0 : ℚ))
    ⟨⟨some "Utterly Different", some "10.1000/ABC", none, none, none, []⟩, none⟩
    "Some Target Title" ⟨none, some " 10.1000/abc ", none, none, none, []⟩
    (by decide) (by decide) (by decide)

/-- C10: DOI fields that are non-empty but consist only of whitespace
still fire the exact-DOI rule (the truthiness guard tests the raw field,
both sides strip to the empty string and compare equal). -/
theorem claim_C10_whitespace_doi (sim : String → String → ℚ) (entry : Entry)
    (ctt : String) (tm : ItemData) (d d' : String)
    (hd : entry.data.DOI = some d) (hd' : tm.DOI = some d')
    (h1 : d ≠ "") (h2 : d' ≠ "")
    (hw : ∀ c ∈ d.data, pyWs c = true) (hw' : ∀ c ∈ d'.data, pyWs c = true) :
    ∃ m, evaluate_match sim entry ctt tm = some m ∧ m.score = 999 ∧ m.similarity = 1 := by
  refine ⟨_, evaluate_match_doi sim entry ctt tm ?_ ?_ ?_, rfl, rfl⟩
  · rw [hd]
    exact truthy_some_of_ne d h1
  · rw [hd']
    exact truthy_some_of_ne d' h2
  · rw [hd, hd']
    show stripLower d = stripLower d'
    unfold stripLower pyStrip
    rw [pyStripL_all_ws d.data hw, pyStripL_all_ws d'.data hw']

/-- C10 witness: a single-space DOI on both sides produces the sentinel
match. -/
theorem claim_C10_witness :
    ∃ m, evaluate_match (fun _ _ => (0 : ℚ))
      ⟨⟨some "t", some " ", none, none, none, []⟩, none⟩
      "u" ⟨none, some "  ", none, none, none, []⟩ = some m ∧
      m.score = 999 ∧ m.similarity = 1 :=
  claim_C10_whitespace_doi (fun _ _ => (0 : ℚ))
    ⟨⟨some "t", some " ", none, none, none, []⟩, none⟩ "u"
    ⟨none, some "  ", none, none, none, []⟩ " " "  " rfl rfl
    (by decide) (by decide) (by decide) (by decide)

/-- C4: `adaptive_query` over the thresholds 80, 40, 20 returns the
result at the first truncation length whose match list is non-empty, and
the empty list when all three are empty. -/
theorem claim_C4_adaptive_first_nonempty (sim : String → String → ℚ)
    (search : String → List Entry) (title : String) (metadata : ItemData) :
    adaptive_query sim search title metadata [80, 40, 20] =
      ((([80, 40, 20].map fun len =>
          find_matching_titles sim search title metadata len).find?
        fun r => !r.isEmpty).getD []) := by
  have key : ∀ ths : List ℕ, adaptive_query sim search title metadata ths =
      (((ths.map fun len => find_matching_titles sim search title metadata len).find?
        fun r => !r.isEmpty).getD []) := by
    intro ths
    induction ths with
    | nil => rfl
    | cons a t ih =>
      rw [adaptive_query, List.map_cons, List.find?_cons]
      cases h : (find_matching_titles sim search title metadata a).isEmpty with
      | false => simp [h]
      | true => simp [h, ih]
  exact key _

/-- C3 counterexample: with a similarity function that accepts "Cat" but
not "The Cat", the orchestrator and the spec-described orchestrator
(which would evaluate candidates against the cleaned title with its
leading article intact) return different results — so the evaluator does
not receive `clean_title(title)`. -/
theorem claim_C3_counterexample :
    find_matching_titles (fun a _ => if a = "Cat" then (1 : ℚ) else 0)
      (fun q => if q = "Cat"
        then [⟨⟨some "x", none, none, none, none, []⟩, some "k"⟩] else [])
      "The Cat" ⟨none, none, none, none, none, []⟩ 80 ≠
    find_matching_titles_specTitle (fun a _ => if a = "Cat" then (1 : ℚ) else 0)
      (fun q => if q = "Cat"
        then [⟨⟨some "x", none, none, none, none, []⟩, some "k"⟩] else [])
      "The Cat" ⟨none, none, none, none, none, []⟩ 80 := by
  decide

/-- C3 (amended): every match returned by `find_matching_titles` was
produced by evaluating a search result against the article-stripped
cleaned title `remove_leading_articles (clean_title title)` — the
leading-article removal applies to the similarity title as well as to
the query string. -/
theorem claim_C3_similarity_title (sim : String → String → ℚ)
    (search : String → List Entry) (title : String) (metadata : ItemData)
    (query_len : ℕ) (m : Match)
    (h : m ∈ find_matching_titles sim search title metadata query_len) :
    ∃ e : Entry,
      evaluate_match sim e (remove_leading_articles (clean_title title)) metadata =
        some m := by
  rw [find_matching_titles] at h
  dsimp only at h
  split at h
  · rw [mem_sortMatches] at h
    obtain ⟨e, -, he⟩ := List.mem_filterMap.mp h
    exact ⟨e, he⟩
  · split at h
    · split at h
      · split at h
        · rw [mem_sortMatches] at h
          obtain ⟨e, -, he⟩ := List.mem_filterMap.mp h
          exact ⟨e, he⟩
        · obtain ⟨e, -, he⟩ := List.mem_filterMap.mp h
          exact ⟨e, he⟩
      · obtain ⟨e, -, he⟩ := List.mem_filterMap.mp h
        exact ⟨e, he⟩
    · obtain ⟨e, -, he⟩ := List.mem_filterMap.mp h
      exact ⟨e, he⟩

/-- C3 witness: the match found for "The Cat" indeed comes from
evaluating against "Cat". -/
theorem claim_C3_witness :
    ∃ e : Entry, evaluate_match (fun a _ => if a = "Cat" then (1 : ℚ) else 0) e
      (remove_leading_articles (clean_title "The Cat"))
      ⟨none, none, none, none, none, []⟩ =
      some ⟨"x", 1, 1, none, none, [], none, none, some "k"⟩ :=
  claim_C3_similarity_title (fun a _ => if a = "Cat" then (1 : ℚ) else 0)
    (fun q => if q = "Cat"
      then [⟨⟨some "x", none, none, none, none, []⟩, some "k"⟩] else [])
    "The Cat" ⟨none, none, none, none, none, []⟩ 80
    ⟨"x", 1, 1, none, none, [], none, none, some "k"⟩ (by decide)

/-- C6 counterexample: two records that both lack `itemType` (and agree on
nothing else) still score 1 — the `itemType` point is awarded for
`None == None`, where the claim says no point may be awarded when either
record lacks the value. -/
theorem claim_C6_counterexample :
    compare_metadata ⟨none, none, none, none, none, []⟩
        ⟨none, none, none, none, none, []⟩ = 1 ∧
      (⟨none, none, none, none, none, []⟩ : ItemData).itemType = none := by
  exact ⟨by decide, rfl⟩

/-- C6 (amended): the +1 point is awarded iff the two optional `itemType`
values are equal — equal strings, or both absent; exactly one side
absent, or different strings, gets no point.  Stated through the full
decomposition of `compare_metadata` into its four contributions. -/
theorem claim_C6_itemType_point (a b : ItemData) :
    compare_metadata a b =
      (if truthy a.DOI && truthy b.DOI &&
          (stripLower (a.DOI.getD "") == stripLower (b.DOI.getD "")) then 5 else 0) +
      (if truthy a.date && truthy b.date && (a.date.getD "" == b.date.getD "")
        then 2 else 0) +
      (if a.itemType = b.itemType then 1 else 0) +
      (if 2 ≤ (extract_author_last_names a.creators ∩
            extract_author_last_names b.creators).card ∨
          creatorRatioOk (extract_author_last_names a.creators ∩
            extract_author_last_names b.creators).card
            (extract_author_last_names b.creators).card then 2 else 0) := by
  unfold compare_metadata
  dsimp only
  split_ifs <;> omega

/-- C7 counterexample: a creator entry that is a dict with neither a
family-name nor a last-name field is not skipped — removing one such
entry from each side changes the score (the two entries contribute the
shared empty-string key and the whole overlap ratio). -/
theorem claim_C7_counterexample :
    compare_metadata ⟨none, none, none, none, none, [Creator.mk none none none]⟩
        ⟨none, none, none, none, none, [Creator.mk none none none]⟩ ≠
      compare_metadata ⟨none, none, none, none, none, []⟩
        ⟨none, none, none, none, none, []⟩ := by
  decide

/-- C7 (amended): only non-dict creator entries are silently skipped —
removing them never changes the score (and no creator entry can make the
total score computation fail, `compare_metadata` being total); dict
entries without name fields do contribute (the empty-string key). -/
theorem claim_C7_nondict_skipped (item target : ItemData) :
    compare_metadata item target =
      compare_metadata (dropJunkCreators item) (dropJunkCreators target) := by
  unfold compare_metadata dropJunkCreators
  rw [extract_author_last_names_filter_junk, extract_author_last_names_filter_junk]

/-- C8 counterexample: the key derived for a creator with family "Smith"
and given names "John Kevin" is "smith", not the claimed "smith j k" —
given names never enter the key. -/
theorem claim_C8_counterexample :
    extract_author_last_names [Creator.mk (some "Smith") none (some "John Kevin")] =
        {"smith"} ∧ ("smith" : String) ≠ "smith j k" := by
  exact ⟨by decide, by decide⟩

/-- C8 (amended): the normalized author key is built from the family
(or last-name) field alone: the given-name field is ignored entirely,
and a creator with non-empty family name `fam` contributes exactly
`normalize_author_name fam`. -/
theorem claim_C8_family_only (fam : String) (ln giv giv' : Option String)
    (h : fam ≠ "") :
    extract_author_last_names [Creator.mk (some fam) ln giv] =
        {normalize_author_name fam} ∧
      extract_author_last_names [Creator.mk (some fam) ln giv] =
        extract_author_last_names [Creator.mk (some fam) ln giv'] := by
  unfold extract_author_last_names creatorRawName
  simp [h]

/-- C8 witness: family "Smith" with any given names yields the key
"smith". -/
theorem claim_C8_witness :
    extract_author_last_names [Creator.mk (some "Smith") none (some "Jo")] =
      {normalize_author_name "Smith"} :=
  (claim_C8_family_only "Smith" none (some "Jo") (some "Jo") (by decide)).1

/-- C9 counterexample: "Smith, J" does not normalize to the same key as
"J. Smith". -/
theorem claim_C9_counterexample :
    normalize_author_name "Smith, J" ≠ normalize_author_name "J. Smith" := by
  decide

/-- C9 (amended): "J. Smith" and "John Smith" collapse to the common key
"smith j", but "Smith, J" yields the different key "j s", because the
last whitespace token is taken as the surname. -/
theorem claim_C9_name_collapse :
    normalize_author_name "J. Smith" = normalize_author_name "John Smith" ∧
      normalize_author_name "J. Smith" = "smith j" ∧
      normalize_author_name "Smith, J" = "j s" := by
  exact ⟨by decide, by decide, by decide⟩

end OAPipe
